import Mathlib

/-!
# Verification of the dependency-grouper reconciliation engine

Shallow embedding of `src/cli.ts` (the engine half: `syncFromPackages`,
`mergeDepGroups`, `generateDependencies`, `loadDepGroups`).  JavaScript
objects (`Record<string, string>` and friends) are modelled as ordered
association lists with JS-object semantics: assignment replaces the value
at an existing key in place, otherwise appends at the end; object spread
`{...a, ...b}` folds assignments of `b`'s entries over `a`; property
reads are first-occurrence lookups; truthiness of a string property is
"present and non-empty".
-/

namespace DepGrouper

/-! ## JS object semantics over association lists -/

namespace JsObj

/-- Property read `d[k]`: first entry with key `k` (JS objects have unique
keys, so first = only). -/
def get? {α : Type} : List (String × α) → String → Option α
  | [], _ => none
  | kv :: rest, k => if kv.1 = k then some kv.2 else get? rest k

/-- Property write `d[k] = v`: replace the value at an existing key in
place, otherwise append the new entry at the end (JS insertion order). -/
def set {α : Type} : List (String × α) → String → α → List (String × α)
  | [], k, v => [(k, v)]
  | kv :: rest, k, v => if kv.1 = k then (k, v) :: rest else kv :: set rest k v

/-- Object spread `{...a, ...b}`: assign each entry of `b` over `a`. -/
def spread {α : Type} (a b : List (String × α)) : List (String × α) :=
  b.foldl (fun acc kv => set acc kv.1 kv.2) a

/-- `Object.keys`. -/
def keys {α : Type} (d : List (String × α)) : List String := d.map Prod.fst

/-- The value of the last entry with key `k` (what survives a spread). -/
def lastVal {α : Type} (d : List (String × α)) (k : String) : Option α :=
  get? d.reverse k

/-- JS truthiness of a string-valued property read: falsy when the
property is absent or the empty string. -/
def falsyStr : Option String → Bool
  | none => true
  | some s => s.isEmpty

end JsObj

/-! ## Data model (`src/types.ts`) -/

/-- A group's dependency set (`DependencySet` in `types.ts`). -/
structure DependencySet where
  dependencies : Option (List (String × String)) := none
  devDependencies : Option (List (String × String)) := none
deriving Repr, DecidableEq

/-- The registry (`DepGroups` in `types.ts`): group name to dependency set. -/
structure DepGroups where
  groups : List (String × DependencySet)
deriving Repr, DecidableEq

/-- A `package.json` manifest (`PackageJson` in `types.ts`).  The
`[key: string]; any` bag of unrecognized fields is carried opaquely in
`otherFields`. -/
structure PackageJson where
  name : String := ""
  depGroups : Option (List String) := none
  dependencies : Option (List (String × String)) := none
  devDependencies : Option (List (String × String)) := none
  scripts : Option (List (String × String)) := none
  otherFields : List (String × String) := []
deriving Repr, DecidableEq

/-! ## String comparison primitives

JS `Array.prototype.sort()` without a comparator orders strings by
code-unit sequence; for the ASCII package names at hand this is plain
lexicographic order on the character sequences, modelled here over
`String.toList` so that it evaluates inside the kernel. -/

/-- Lexicographic comparison of character lists by code point. -/
def charListLe : List Char → List Char → Bool
  | [], _ => true
  | _ :: _, [] => false
  | a :: as, b :: bs =>
    if a.toNat < b.toNat then true
    else if b.toNat < a.toNat then false
    else charListLe as bs

/-- The string order used by the JS default sort. -/
def strLe (a b : String) : Bool := charListLe a.toList b.toList

/-- `strLe` as a decidable relation (for `List.insertionSort`). -/
def strLeP (a b : String) : Prop := strLe a b = true

instance : DecidableRel strLeP := fun a b => by unfold strLeP; infer_instance

/-- JS `s.startsWith(pre)`. -/
def strStartsWith (s pre : String) : Bool := pre.toList.isPrefixOf s.toList

/-! ## Merge Engine (`mergeDepGroups`, cli.ts lines 343-418) -/

/-- The `console.warn` text for a version conflict between two groups
(cli.ts lines 371 and 386). -/
def conflictWarn (isDev : Bool) (dep v1 g1 v2 g2 : String) : String :=
  let devTag := if isDev then " (dev)" else ""
  s!"Warning: Version conflict for \"{dep}\"{devTag}: {v1} ({g1}) vs {v2} ({g2}). Using {v2}."

/-- The `console.warn` text for a missing group (cli.ts line 363). -/
def missingGroupWarn (groupName : String) : String :=
  s!"Warning: Group \"{groupName}\" not found in .dep-groups.yaml"

/-- The conflict-tracking loop body of `mergeDepGroups` (cli.ts lines
368-374 and 383-389): for each entry of a group's dependency map, warn if
`depVersions` already records a different version, then record this
group's version.  State: the `depVersions` map (dep name to
version-and-group) and the accumulated warnings. -/
def checkVersions (groupName : String) (isDev : Bool) :
    List (String × String) → List (String × String × String) → List String →
    List (String × String × String) × List String
  | [], vers, warns => (vers, warns)
  | (dep, version) :: rest, vers, warns =>
    let warns := match JsObj.get? vers dep with
      | some vg => if vg.1 ≠ version then
          warns ++ [conflictWarn isDev dep vg.1 vg.2 version groupName]
        else warns
      | none => warns
    checkVersions groupName isDev rest (JsObj.set vers dep (version, groupName)) warns

/-- Loop state of `mergeDepGroups`.  The registry is threaded through
the state to record that the source performs no write to it. -/
structure MergeState where
  registry : DepGroups
  mergedDeps : List (String × String)
  mergedDev : List (String × String)
  depVersions : List (String × String × String)
  devDepVersions : List (String × String × String)
  warnings : List String
deriving Repr

/-- One iteration of the `for (const groupName of packageJson.depGroups)`
loop (cli.ts lines 359-396): look up the group (warn and continue if
missing), run the conflict check over its `dependencies` and overlay them
onto the merged map, then the same for `devDependencies`. -/
def mergeGroupStep (st : MergeState) (groupName : String) : MergeState :=
  match JsObj.get? st.registry.groups groupName with
  | none => { st with warnings := st.warnings ++ [missingGroupWarn groupName] }
  | some group =>
    let st1 : MergeState :=
      match group.dependencies with
      | some gd =>
        let r := checkVersions groupName false gd st.depVersions st.warnings
        { st with depVersions := r.1, warnings := r.2,
                  mergedDeps := JsObj.spread st.mergedDeps gd }
      | none => st
    match group.devDependencies with
    | some gdd =>
      let r := checkVersions groupName true gdd st1.devDepVersions st1.warnings
      { st1 with devDepVersions := r.1, warnings := r.2,
                 mergedDev := JsObj.spread st1.mergedDev gdd }
    | none => st1

/-- The alphabetical re-keying of a merged map (cli.ts lines 398-415):
`Object.keys(m).sort().reduce((acc, key) => { acc[key] = m[key]; ... })`. -/
def sortByKey (d : List (String × String)) : List (String × String) :=
  (List.insertionSort strLeP (JsObj.keys d)).map fun k => (k, (JsObj.get? d k).getD "")

/-- State before the group loop (cli.ts lines 351-357): the merged maps
start as spreads of the manifest's own maps (`{...packageJson.dependencies}`,
which is `{}` when the field is absent), both conflict trackers empty. -/
def mergeInitState (packageJson : PackageJson) (depGroups : DepGroups) : MergeState :=
  { registry := depGroups
    mergedDeps := JsObj.spread [] (packageJson.dependencies.getD [])
    mergedDev := JsObj.spread [] (packageJson.devDependencies.getD [])
    depVersions := []
    devDepVersions := []
    warnings := [] }

/-- `mergeDepGroups` (cli.ts lines 343-418), with the registry state after
the call and the emitted warnings made explicit.  Returns the manifest
unchanged when `depGroups` is absent or empty; otherwise copies the
manifest, spreads each referenced group's maps over its dependency maps
(recording conflicts), and sorts both maps by key. -/
def mergeDepGroupsFull (packageJson : PackageJson) (depGroups : DepGroups) :
    PackageJson × DepGroups × List String :=
  match packageJson.depGroups with
  | none => (packageJson, depGroups, [])
  | some refs =>
    if refs.isEmpty then (packageJson, depGroups, []) else
    let st := refs.foldl mergeGroupStep (mergeInitState packageJson depGroups)
    ({ packageJson with
        dependencies := some (sortByKey st.mergedDeps)
        devDependencies := some (sortByKey st.mergedDev) },
     st.registry, st.warnings)

/-- The manifest returned by `mergeDepGroups`. -/
def mergeDepGroups (p : PackageJson) (g : DepGroups) : PackageJson :=
  (mergeDepGroupsFull p g).1

/-- The registry object as it stands when `mergeDepGroups` returns. -/
def mergeRegistryAfter (p : PackageJson) (g : DepGroups) : DepGroups :=
  (mergeDepGroupsFull p g).2.1

/-- The warnings `mergeDepGroups` printed. -/
def mergeWarnings (p : PackageJson) (g : DepGroups) : List String :=
  (mergeDepGroupsFull p g).2.2

/-! ## Sync Engine (`syncFromPackages`, cli.ts lines 124-341)

The filesystem plumbing (path joins, directory walk, YAML parse) is the
spec's "external collaborator": a discovered manifest is a `PkgFile`
(its directory plus the parsed manifest), the registry file is a
previous-existence flag plus the parsed stored registry. -/

/-- One discovered `package.json`: its directory and parsed content. -/
structure PkgFile where
  dir : String
  pkg : PackageJson
deriving Repr, DecidableEq

/-- Mutable state of the sync loop: the in-memory registry, the
`updated` flag and the `console.log` messages in order. -/
structure SyncState where
  depGroups : DepGroups
  updated : Bool
  messages : List String
deriving Repr, DecidableEq

/-- The first pass (cli.ts lines 141-149): does any manifest declare a
non-empty `depGroups` list? -/
def hasAnyDepGroupsOf (packageFiles : List PkgFile) : Bool :=
  packageFiles.any fun pf => match pf.pkg.depGroups with
    | some refs => refs.length > 0
    | none => false

/-- Target-group selection for one manifest (cli.ts lines 159-169):
explicit non-empty `depGroups` wins; otherwise bootstrap to `root` /
`standalone` when no manifest has groups or the registry file is new;
otherwise `none` (the `continue`, skipping the manifest). -/
def targetGroups? (fileExists hasAnyDepGroups isRootPkg : Bool)
    (packageJson : PackageJson) : Option (List String) :=
  if (packageJson.depGroups.getD []).length > 0 then
    some (packageJson.depGroups.getD [])
  else if !hasAnyDepGroups || !fileExists then
    some [if isRootPkg then "root" else "standalone"]
  else
    none

/-- `findGroupWithDep` (cli.ts lines 172-185): first target group whose
relevant map has the dependency truthily (present with non-empty
version). -/
def findGroupWithDep (depGroups : DepGroups) (targetGroups : List String)
    (dep : String) (isDevDep : Bool) : Option String :=
  targetGroups.findSome? fun groupName =>
    match JsObj.get? depGroups.groups groupName with
    | none => none
    | some group =>
      if isDevDep then
        match group.devDependencies with
        | some dd => if !JsObj.falsyStr (JsObj.get? dd dep) then some groupName else none
        | none => none
      else
        match group.dependencies with
        | some dd => if !JsObj.falsyStr (JsObj.get? dd dep) then some groupName else none
        | none => none

/-- The `console.log` for a version update (cli.ts lines 208 and 231).
`shown` is whatever the template's first interpolation printed — the
source reads `group.dependencies[dep]` there. -/
def updateMsg (isDev : Bool) (dep shown version groupName : String) : String :=
  let devTag := if isDev then " (dev)" else ""
  s!"  ↻ Updated {dep}{devTag}: {shown} → {version} in group \"{groupName}\""

/-- The `console.log` for an addition to the landing group (cli.ts
lines 256 and 270). -/
def addMsg (isDev : Bool) (dep version groupName : String) : String :=
  let devTag := if isDev then " (dev)" else ""
  s!"  + Added {dep}@{version}{devTag} to group \"{groupName}\""

/-- Body of the per-dependency sync loop (cli.ts lines 192-211 for
`dependencies`, 215-234 for `devDependencies`): skip `workspace:`
versions; collect the entry as new when no target group has it;
otherwise overwrite the group's recorded version on mismatch, set
`updated`, and log — the source builds the log message after the
assignment, so the first interpolation shows the freshly written
version. -/
def syncDepStep (targetGroups : List String) (isDev : Bool)
    (acc : SyncState × List (String × String)) (kv : String × String) :
    SyncState × List (String × String) :=
  let (st, newDeps) := acc
  if strStartsWith kv.2 "workspace:" then (st, newDeps)
  else
    match findGroupWithDep st.depGroups targetGroups kv.1 isDev with
    | none => (st, JsObj.set newDeps kv.1 kv.2)
    | some groupName =>
      match JsObj.get? st.depGroups.groups groupName with
      | none => (st, newDeps)  -- unreachable: `findGroupWithDep` only returns present groups
      | some group =>
        let gmap := if isDev then group.devDependencies else group.dependencies
        match gmap with
        | none => (st, newDeps)
        | some gd =>
          if JsObj.get? gd kv.1 ≠ some kv.2 then
            let gd' := JsObj.set gd kv.1 kv.2
            let group' := if isDev then { group with devDependencies := some gd' }
                          else { group with dependencies := some gd' }
            let shown := (JsObj.get? gd' kv.1).getD ""
            ({ depGroups := ⟨JsObj.set st.depGroups.groups groupName group'⟩
               updated := true
               messages := st.messages ++ [updateMsg isDev kv.1 shown kv.2 groupName] },
             newDeps)
          else (st, newDeps)

/-- The landing-group insertion loop body (cli.ts lines 252-258 and
266-272): add each collected new dependency to the landing group's map
unless already truthily present, setting `updated` and logging. -/
def addNewDepsLoop (isDev : Bool) (standaloneGroupName : String) :
    List (String × String) → List (String × String) → Bool → List String →
    List (String × String) × Bool × List String
  | [], gd, upd, msgs => (gd, upd, msgs)
  | (dep, version) :: rest, gd, upd, msgs =>
    if !JsObj.falsyStr (JsObj.get? gd dep) then
      addNewDepsLoop isDev standaloneGroupName rest gd upd msgs
    else
      addNewDepsLoop isDev standaloneGroupName rest (JsObj.set gd dep version) true
        (msgs ++ [addMsg isDev dep version standaloneGroupName])

/-- The "add new dependencies to the landing group" block (cli.ts lines
238-274): when anything was collected, ensure the landing group
(`root` for the root manifest, else `standalone`) exists and run the
insertion loop over both collected maps. -/
def addNewDeps (isRootPkg : Bool) (st : SyncState)
    (newDependencies newDevDependencies : List (String × String)) : SyncState :=
  if newDependencies.isEmpty && newDevDependencies.isEmpty then st
  else
    let standaloneGroupName := if isRootPkg then "root" else "standalone"
    let groups := st.depGroups.groups
    let groups := if (JsObj.get? groups standaloneGroupName).isSome then groups
                  else JsObj.set groups standaloneGroupName {}
    let group := (JsObj.get? groups standaloneGroupName).getD {}
    let (gd, upd1, msgs1) :=
      if newDependencies.isEmpty then (group.dependencies.getD [], st.updated, st.messages)
      else addNewDepsLoop false standaloneGroupName newDependencies
        (group.dependencies.getD []) st.updated st.messages
    let group := if newDependencies.isEmpty then group
                 else { group with dependencies := some gd }
    let (gdd, upd2, msgs2) :=
      if newDevDependencies.isEmpty then (group.devDependencies.getD [], upd1, msgs1)
      else addNewDepsLoop true standaloneGroupName newDevDependencies
        (group.devDependencies.getD []) upd1 msgs1
    let group := if newDevDependencies.isEmpty then group
                 else { group with devDependencies := some gdd }
    { depGroups := ⟨JsObj.set groups standaloneGroupName group⟩
      updated := upd2
      messages := msgs2 }

/-- Processing of one manifest inside the main sync loop (cli.ts lines
151-275): pick target groups (or skip), run the per-entry loop over both
dependency maps, then deposit collected new dependencies in the landing
group. -/
def processPackage (fileExists hasAnyDepGroups : Bool) (rootDir : String)
    (st : SyncState) (pf : PkgFile) : SyncState :=
  let packageJson := pf.pkg
  let isRootPkg := pf.dir == rootDir
  match targetGroups? fileExists hasAnyDepGroups isRootPkg packageJson with
  | none => st
  | some targetGroups =>
    let (st, newDependencies) :=
      (packageJson.dependencies.getD []).foldl (syncDepStep targetGroups false) (st, [])
    let (st, newDevDependencies) :=
      (packageJson.devDependencies.getD []).foldl (syncDepStep targetGroups true) (st, [])
    addNewDeps isRootPkg st newDependencies newDevDependencies

/-- Result of one `syncFromPackages` run: the in-memory registry at the
end, the `updated` flag, whether the file was (re)written (cli.ts line
277: `updated || !fileExists`), and the logged messages. -/
structure SyncRun where
  depGroups : DepGroups
  updated : Bool
  written : Bool
  messages : List String
deriving Repr, DecidableEq

/-- `syncFromPackages` (cli.ts lines 124-341): load the stored registry
(or start empty when the file does not exist), compute
`hasAnyDepGroups`, process every discovered manifest in order, and
decide whether to write the file back. -/
def syncFromPackages (rootDir : String) (fileExists : Bool) (stored : DepGroups)
    (packageFiles : List PkgFile) : SyncRun :=
  let depGroups := if fileExists then stored else ⟨[]⟩
  let hasAny := hasAnyDepGroupsOf packageFiles
  let st := packageFiles.foldl (processPackage fileExists hasAny rootDir)
    ⟨depGroups, false, []⟩
  { depGroups := st.depGroups
    updated := st.updated
    written := st.updated || !fileExists
    messages := st.messages }

/-- Whether the registry file exists on disk after a sync run: it
existed before, or sync wrote it (cli.ts lines 277-337 write exactly
when `run.written`; nothing ever deletes it). -/
def registryExistsAfterSync (fileExistsBefore : Bool) (run : SyncRun) : Bool :=
  fileExistsBefore || run.written

/-- `loadDepGroups` (cli.ts lines 87-96): error iff the registry file
does not exist, else the parsed content. -/
def loadDepGroups (rootDir : String) (fileExists : Bool) (stored : DepGroups) :
    Except String DepGroups :=
  if fileExists then Except.ok stored
  else Except.error s!".dep-groups.yaml not found at {rootDir}/.dep-groups.yaml"

/-! ## Generation Orchestrator: install-hook injection
(`generateDependencies`, cli.ts lines 465-477) -/

/-- The injected command (cli.ts line 466). -/
def generateCmd : String := "dependency-grouper generate"

/-- Substring test on character lists (JS `String.prototype.includes`). -/
def containsSub : List Char → List Char → Bool
  | [], pat => pat.isEmpty
  | c :: rest, pat => pat.isPrefixOf (c :: rest) || containsSub rest pat

/-- JS `s.includes(pat)`. -/
def strIncludes (s pat : String) : Bool := containsSub s.toList pat.toList

/-- The preinstall-hook block (cli.ts lines 466-477): materialize
`scripts` if falsy; if `scripts.preinstall` is falsy (absent or empty
string) set it to the generate command; else if it does not contain
"dependency-grouper", append `&& dependency-grouper generate`; else
leave everything unchanged. -/
def injectPreinstall (scripts : Option (List (String × String))) :
    List (String × String) :=
  let s := scripts.getD []
  let pre := JsObj.get? s "preinstall"
  if JsObj.falsyStr pre then JsObj.set s "preinstall" generateCmd
  else
    let p := pre.getD ""
    if !strIncludes p "dependency-grouper" then
      JsObj.set s "preinstall" (p ++ " && " ++ generateCmd)
    else s

/-! ## Derived views used by the statements and proofs -/

/-- The `dependencies` map a group reference contributes during merge:
empty when the group is missing from the registry or has no
`dependencies` field. -/
def groupDepsOf (reg : DepGroups) (g : String) : List (String × String) :=
  ((JsObj.get? reg.groups g).bind DependencySet.dependencies).getD []

/-- Same for `devDependencies`. -/
def groupDevDepsOf (reg : DepGroups) (g : String) : List (String × String) :=
  ((JsObj.get? reg.groups g).bind DependencySet.devDependencies).getD []

/-- Concatenation of the `dependencies` contributed by a reference list,
in declared order. -/
def groupDepsConcat (reg : DepGroups) : List String → List (String × String)
  | [] => []
  | g :: rest => groupDepsOf reg g ++ groupDepsConcat reg rest

/-- Same for `devDependencies`. -/
def groupDevDepsConcat (reg : DepGroups) : List String → List (String × String)
  | [] => []
  | g :: rest => groupDevDepsOf reg g ++ groupDevDepsConcat reg rest

/-- The spec's notion of dropping workspace-protocol entries from a
dependency map (used to state that sync ignores them). -/
def dropWorkspaceEntries (d : List (String × String)) : List (String × String) :=
  d.filter fun kv => !strStartsWith kv.2 "workspace:"

/-- A manifest with its workspace-protocol entries removed. -/
def pkgWithoutWorkspaceEntries (p : PackageJson) : PackageJson :=
  { p with dependencies := p.dependencies.map dropWorkspaceEntries
           devDependencies := p.devDependencies.map dropWorkspaceEntries }

/-- A discovered manifest file with its workspace-protocol entries
removed. -/
def fileWithoutWorkspaceEntries (pf : PkgFile) : PkgFile :=
  { pf with pkg := pkgWithoutWorkspaceEntries pf.pkg }

/-! ## Lemmas about the JS object operations -/

namespace JsObj

theorem get?_cons {α : Type} (kv : String × α) (rest : List (String × α)) (k : String) :
    get? (kv :: rest) k = if kv.1 = k then some kv.2 else get? rest k := rfl

theorem get?_set_self {α : Type} (d : List (String × α)) (k : String) (v : α) :
    get? (set d k v) k = some v := by
  induction d with
  | nil => simp [set, get?]
  | cons kv rest ih =>
    by_cases h : kv.1 = k
    · simp [set, h, get?]
    · simp [set, h, get?, ih]

theorem get?_set_of_ne {α : Type} (d : List (String × α)) (k' k : String) (v : α)
    (h : k' ≠ k) : get? (set d k' v) k = get? d k := by
  induction d with
  | nil => simp [set, get?, h]
  | cons kv rest ih =>
    by_cases hk : kv.1 = k'
    · simp [set, hk, get?, h]
    · simp [set, hk, get?, ih]

theorem mem_of_get?_eq_some {α : Type} {d : List (String × α)} {k : String} {v : α}
    (h : get? d k = some v) : (k, v) ∈ d := by
  induction d with
  | nil => simp [get?] at h
  | cons kv rest ih =>
    rw [get?_cons] at h
    by_cases hk : kv.1 = k
    · simp only [hk, if_pos rfl] at h
      have : kv = (k, v) := by
        cases kv
        simp_all
      simp [this]
    · simp only [hk, if_neg] at h
      exact List.mem_cons_of_mem _ (ih (by simpa [hk] using h))

theorem set_cons {α : Type} (kv : String × α) (rest : List (String × α)) (k : String)
    (v : α) :
    set (kv :: rest) k v = if kv.1 = k then (k, v) :: rest else kv :: set rest k v := rfl

theorem keys_cons {α : Type} (kv : String × α) (rest : List (String × α)) :
    keys (kv :: rest) = kv.1 :: keys rest := rfl

theorem get?_eq_none_iff {α : Type} (d : List (String × α)) (k : String) :
    get? d k = none ↔ k ∉ keys d := by
  induction d with
  | nil => simp [get?, keys]
  | cons kv rest ih =>
    rw [get?_cons, keys_cons]
    by_cases hk : kv.1 = k
    · simp [hk]
    · rw [if_neg hk, ih]
      simp only [List.mem_cons, not_or]
      exact ⟨fun h2 => ⟨fun e => hk e.symm, h2⟩, fun h2 => h2.2⟩

theorem get?_isSome_iff {α : Type} (d : List (String × α)) (k : String) :
    (get? d k).isSome ↔ k ∈ keys d := by
  constructor
  · intro h
    obtain ⟨v, hv⟩ := Option.isSome_iff_exists.mp h
    exact List.mem_map_of_mem Prod.fst (mem_of_get?_eq_some hv)
  · intro hm
    by_contra h
    rw [Option.not_isSome_iff_eq_none] at h
    exact (get?_eq_none_iff d k).mp h hm

theorem keys_set_of_mem {α : Type} {d : List (String × α)} {k : String} (v : α)
    (h : k ∈ keys d) : keys (set d k v) = keys d := by
  induction d with
  | nil => simp [keys] at h
  | cons kv rest ih =>
    by_cases hk : kv.1 = k
    · rw [set_cons, if_pos hk, keys_cons, keys_cons, hk]
    · have hm : k ∈ keys rest := by
        rcases List.mem_cons.mp (by rwa [keys_cons] at h) with h1 | h1
        · exact absurd h1.symm hk
        · exact h1
      rw [set_cons, if_neg hk, keys_cons, keys_cons, ih hm]

theorem keys_set_of_not_mem {α : Type} {d : List (String × α)} {k : String} (v : α)
    (h : k ∉ keys d) : keys (set d k v) = keys d ++ [k] := by
  induction d with
  | nil => simp [set, keys]
  | cons kv rest ih =>
    rw [keys_cons] at h
    have hk : kv.1 ≠ k := fun e => h (e ▸ List.mem_cons_self _ _)
    have h2 : k ∉ keys rest := fun m => h (List.mem_cons_of_mem _ m)
    rw [set_cons, if_neg hk, keys_cons, ih h2, keys_cons, List.cons_append]

theorem mem_keys_set {α : Type} (d : List (String × α)) (k : String) (v : α) (x : String) :
    x ∈ keys (set d k v) ↔ x ∈ keys d ∨ x = k := by
  by_cases h : k ∈ keys d
  · rw [keys_set_of_mem v h]
    exact ⟨Or.inl, fun hx => hx.elim id (fun e => e ▸ h)⟩
  · rw [keys_set_of_not_mem v h]
    simp [List.mem_append]

theorem nodup_keys_set {α : Type} {d : List (String × α)} (k : String) (v : α)
    (h : (keys d).Nodup) : (keys (set d k v)).Nodup := by
  by_cases hm : k ∈ keys d
  · rwa [keys_set_of_mem v hm]
  · rw [keys_set_of_not_mem v hm]
    simp [List.nodup_append, h, hm]

theorem spread_nil {α : Type} (a : List (String × α)) : spread a [] = a := rfl

theorem spread_cons {α : Type} (a : List (String × α)) (kv : String × α)
    (t : List (String × α)) : spread a (kv :: t) = spread (set a kv.1 kv.2) t := rfl

theorem spread_append {α : Type} (a b c : List (String × α)) :
    spread a (b ++ c) = spread (spread a b) c := by
  simp [spread, List.foldl_append]

theorem get?_append {α : Type} (l1 l2 : List (String × α)) (k : String) :
    get? (l1 ++ l2) k = (get? l1 k).or (get? l2 k) := by
  induction l1 with
  | nil => simp [get?, Option.none_or]
  | cons kv rest ih =>
    by_cases hk : kv.1 = k <;> simp [get?, hk, ih, Option.or]

theorem lastVal_nil {α : Type} (k : String) : lastVal ([] : List (String × α)) k = none := rfl

theorem lastVal_cons {α : Type} (kv : String × α) (t : List (String × α)) (k : String) :
    lastVal (kv :: t) k = (lastVal t k).or (if kv.1 = k then some kv.2 else none) := by
  simp [lastVal, List.reverse_cons, get?_append, get?]

theorem get?_spread {α : Type} (a b : List (String × α)) (k : String) :
    get? (spread a b) k = (lastVal b k).or (get? a k) := by
  induction b generalizing a with
  | nil => simp [spread_nil, lastVal_nil, Option.none_or]
  | cons kv t ih =>
    rw [spread_cons, ih, lastVal_cons]
    cases h : lastVal t k with
    | some v => simp [Option.or]
    | none =>
      simp only [Option.none_or]
      by_cases hk : kv.1 = k
      · subst hk
        simp [get?_set_self, Option.or]
      · simp [get?_set_of_ne _ _ _ _ hk, hk, Option.none_or]

theorem mem_keys_spread {α : Type} (a b : List (String × α)) (x : String) :
    x ∈ keys (spread a b) ↔ x ∈ keys a ∨ x ∈ keys b := by
  induction b generalizing a with
  | nil => simp [spread_nil, keys]
  | cons kv t ih =>
    rw [spread_cons, ih, mem_keys_set]
    simp only [keys_cons, List.mem_cons]
    tauto

theorem nodup_keys_spread {α : Type} {a : List (String × α)} (b : List (String × α))
    (h : (keys a).Nodup) : (keys (spread a b)).Nodup := by
  induction b generalizing a with
  | nil => simpa [spread_nil]
  | cons kv t ih =>
    rw [spread_cons]
    exact ih (nodup_keys_set _ _ h)

theorem set_eq_append_of_not_mem {α : Type} {d : List (String × α)} {k : String} (v : α)
    (h : k ∉ keys d) : set d k v = d ++ [(k, v)] := by
  induction d with
  | nil => simp [set]
  | cons kv rest ih =>
    rw [keys_cons] at h
    have hk : kv.1 ≠ k := fun e => h (e ▸ List.mem_cons_self _ _)
    have h2 : k ∉ keys rest := fun m => h (List.mem_cons_of_mem _ m)
    rw [set_cons, if_neg hk, ih h2, List.cons_append]

theorem spread_eq_append_of_nodup {α : Type} (a b : List (String × α))
    (h : (keys a ++ keys b).Nodup) : spread a b = a ++ b := by
  induction b generalizing a with
  | nil => simp [spread_nil]
  | cons kv t ih =>
    have hk : kv.1 ∉ keys a := by
      have hd := List.disjoint_of_nodup_append h
      intro m
      exact hd m (by rw [keys_cons]; exact List.mem_cons_self _ _)
    rw [spread_cons, set_eq_append_of_not_mem _ hk, ih]
    · simp [List.append_assoc]
    · have he : keys (a ++ [(kv.1, kv.2)]) ++ keys t = keys a ++ (kv.1 :: keys t) := by
        simp [keys, List.append_assoc]
      rw [he]
      rw [keys_cons] at h
      exact h

theorem spread_nil_left_eq {α : Type} (d : List (String × α)) (h : (keys d).Nodup) :
    spread [] d = d := by
  have := spread_eq_append_of_nodup [] d (by simpa [keys])
  simpa using this

theorem lastVal_eq_get?_of_nodup {α : Type} {d : List (String × α)} (k : String)
    (h : (keys d).Nodup) : lastVal d k = get? d k := by
  induction d with
  | nil => rfl
  | cons kv t ih =>
    rw [keys_cons] at h
    obtain ⟨hm, hnd⟩ := List.nodup_cons.mp h
    rw [lastVal_cons]
    by_cases hk : kv.1 = k
    · subst hk
      have hl : lastVal t kv.1 = none := by
        unfold lastVal
        rw [get?_eq_none_iff]
        intro hmem
        exact hm (by simpa [keys] using hmem)
      simp [hl, get?, Option.none_or]
    · simp [get?_cons, hk, ih hnd, Option.or_none]

end JsObj

/-! ## The string order: totality, transitivity, antisymmetry -/

theorem charListLe_refl (a : List Char) : charListLe a a = true := by
  induction a with
  | nil => rfl
  | cons x xs ih => simp [charListLe, ih]

theorem charListLe_total (a b : List Char) :
    charListLe a b = true ∨ charListLe b a = true := by
  induction a generalizing b with
  | nil => left; rfl
  | cons x xs ih =>
    cases b with
    | nil => right; rfl
    | cons y ys =>
      by_cases h1 : x.toNat < y.toNat
      · left; simp [charListLe, h1]
      · by_cases h2 : y.toNat < x.toNat
        · right; simp [charListLe, h2]
        · rcases ih ys with h | h
          · left; simp [charListLe, h1, h2, h]
          · right; simp [charListLe, h1, h2, h]

theorem charListLe_trans {a b c : List Char} (h1 : charListLe a b = true)
    (h2 : charListLe b c = true) : charListLe a c = true := by
  induction a generalizing b c with
  | nil => rfl
  | cons x xs ih =>
    cases b with
    | nil => simp [charListLe] at h1
    | cons y ys =>
      cases c with
      | nil => simp [charListLe] at h2
      | cons z zs =>
        simp only [charListLe] at h1 h2 ⊢
        by_cases hxy : x.toNat < y.toNat <;> by_cases hyz : y.toNat < z.toNat
        · have hxz : x.toNat < z.toNat := Nat.lt_trans hxy hyz
          simp [hxz]
        · rw [if_neg hyz] at h2
          by_cases hzy : z.toNat < y.toNat
          · rw [if_pos hzy] at h2
            exact absurd h2 (by simp)
          · rw [if_neg hzy] at h2
            have he : y.toNat = z.toNat := by omega
            have hxz : x.toNat < z.toNat := he ▸ hxy
            simp [hxz]
        · rw [if_neg hxy] at h1
          by_cases hyx : y.toNat < x.toNat
          · rw [if_pos hyx] at h1
            exact absurd h1 (by simp)
          · rw [if_neg hyx] at h1
            have he : x.toNat = y.toNat := by omega
            have hxz : x.toNat < z.toNat := he ▸ hyz
            simp [hxz]
        · rw [if_neg hxy] at h1
          rw [if_neg hyz] at h2
          by_cases hyx : y.toNat < x.toNat
          · rw [if_pos hyx] at h1
            exact absurd h1 (by simp)
          · rw [if_neg hyx] at h1
            by_cases hzy : z.toNat < y.toNat
            · rw [if_pos hzy] at h2
              exact absurd h2 (by simp)
            · rw [if_neg hzy] at h2
              have hxz : ¬ x.toNat < z.toNat := by omega
              have hzx : ¬ z.toNat < x.toNat := by omega
              rw [if_neg hxz, if_neg hzx]
              exact ih h1 h2

theorem charListLe_antisymm {a b : List Char} (h1 : charListLe a b = true)
    (h2 : charListLe b a = true) : a = b := by
  induction a generalizing b with
  | nil =>
    cases b with
    | nil => rfl
    | cons y ys => simp [charListLe] at h2
  | cons x xs ih =>
    cases b with
    | nil => simp [charListLe] at h1
    | cons y ys =>
      simp only [charListLe] at h1 h2
      by_cases hxy : x.toNat < y.toNat
      · have hyx : ¬ y.toNat < x.toNat := by omega
        rw [if_neg hyx, if_pos hxy] at h2
        exact absurd h2 (by simp)
      · by_cases hyx : y.toNat < x.toNat
        · rw [if_neg hxy, if_pos hyx] at h1
          exact absurd h1 (by simp)
        · rw [if_neg hxy, if_neg hyx] at h1
          rw [if_neg hyx, if_neg hxy] at h2
          have hn : x.toNat = y.toNat := by omega
          have hv : x = y := Char.ext (UInt32.toNat.inj hn)
          rw [hv, ih h1 h2]

instance : IsTotal String strLeP :=
  ⟨fun a b => charListLe_total a.toList b.toList⟩

instance : IsTrans String strLeP :=
  ⟨fun _ _ _ h1 h2 => charListLe_trans h1 h2⟩

instance : IsAntisymm String strLeP :=
  ⟨fun _ _ h1 h2 => String.toList_inj.mp (charListLe_antisymm h1 h2)⟩

instance : IsRefl String strLeP :=
  ⟨fun a => charListLe_refl a.toList⟩

/-! ## Lemmas about `sortByKey` -/

theorem get?_map_graph (ks : List String) (f : String → String) (x : String) :
    JsObj.get? (ks.map fun k => (k, f k)) x = if x ∈ ks then some (f x) else none := by
  induction ks with
  | nil => simp [JsObj.get?]
  | cons k t ih =>
    by_cases hk : k = x
    · subst hk
      simp [JsObj.get?]
    · rw [List.map_cons, JsObj.get?_cons, ih]
      simp [hk, Ne.symm hk, List.mem_cons]

theorem keys_sortByKey (d : List (String × String)) :
    JsObj.keys (sortByKey d) = List.insertionSort strLeP (JsObj.keys d) := by
  unfold sortByKey JsObj.keys
  rw [List.map_map]
  have hc : (Prod.fst ∘ fun k => (k, (JsObj.get? d k).getD "")) = id := rfl
  rw [hc, List.map_id]

theorem get?_sortByKey (d : List (String × String)) (k : String) :
    JsObj.get? (sortByKey d) k = JsObj.get? d k := by
  unfold sortByKey
  rw [get?_map_graph]
  by_cases hm : k ∈ List.insertionSort strLeP (JsObj.keys d)
  · rw [if_pos hm]
    have hm' : k ∈ JsObj.keys d := (List.perm_insertionSort _ _).mem_iff.mp hm
    obtain ⟨v, hv⟩ := Option.isSome_iff_exists.mp ((JsObj.get?_isSome_iff d k).mpr hm')
    rw [hv]
    simp
  · rw [if_neg hm]
    have hm' : k ∉ JsObj.keys d := fun h =>
      hm ((List.perm_insertionSort _ _).mem_iff.mpr h)
    exact ((JsObj.get?_eq_none_iff d k).mpr hm').symm

theorem nodup_keys_sortByKey (d : List (String × String))
    (h : (JsObj.keys d).Nodup) : (JsObj.keys (sortByKey d)).Nodup := by
  rw [keys_sortByKey]
  exact ((List.perm_insertionSort _ _).nodup_iff).mpr h

theorem sorted_keys_sortByKey (d : List (String × String)) :
    List.Sorted strLeP (JsObj.keys (sortByKey d)) := by
  rw [keys_sortByKey]
  exact List.sorted_insertionSort _ _

/-! ## Lemmas about `checkVersions` -/

theorem checkVersions_warns_mono (g : String) (isDev : Bool) {w : String} :
    ∀ (l : List (String × String)) (vm : List (String × String × String))
      (ws : List String), w ∈ ws → w ∈ (checkVersions g isDev l vm ws).2 := by
  intro l
  induction l with
  | nil => intro vm ws h; exact h
  | cons kv rest ih =>
    intro vm ws h
    obtain ⟨dep, version⟩ := kv
    simp only [checkVersions]
    apply ih
    split
    · split
      · exact List.mem_append_left _ h
      · exact h
    · exact h

theorem checkVersions_vers_of_not_mem (g : String) (isDev : Bool) {x : String} :
    ∀ (l : List (String × String)) (vm : List (String × String × String))
      (ws : List String), x ∉ JsObj.keys l →
      JsObj.get? (checkVersions g isDev l vm ws).1 x = JsObj.get? vm x := by
  intro l
  induction l with
  | nil => intro vm ws _; rfl
  | cons kv rest ih =>
    intro vm ws h
    obtain ⟨dep, version⟩ := kv
    rw [JsObj.keys_cons] at h
    have hd : dep ≠ x := fun e => h (e ▸ List.mem_cons_self _ _)
    have h2 : x ∉ JsObj.keys rest := fun m => h (List.mem_cons_of_mem _ m)
    simp only [checkVersions]
    rw [ih _ _ h2]
    exact JsObj.get?_set_of_ne _ _ _ _ hd

theorem checkVersions_vers_of_mem (g : String) (isDev : Bool) {x v : String} :
    ∀ (l : List (String × String)) (vm : List (String × String × String))
      (ws : List String), (x, v) ∈ l → (JsObj.keys l).Nodup →
      JsObj.get? (checkVersions g isDev l vm ws).1 x = some (v, g) := by
  intro l
  induction l with
  | nil => intro vm ws hmem _; simp at hmem
  | cons kv rest ih =>
    intro vm ws hmem hnd
    obtain ⟨dep, version⟩ := kv
    rw [JsObj.keys_cons] at hnd
    obtain ⟨hni, hnd'⟩ := List.nodup_cons.mp hnd
    simp only [checkVersions]
    rcases List.mem_cons.mp hmem with he | hm
    · injection he with e1 e2
      subst e1
      subst e2
      rw [checkVersions_vers_of_not_mem g isDev rest _ _ hni]
      exact JsObj.get?_set_self _ _ _
    · exact ih _ _ hm hnd'

theorem checkVersions_warn_of_conflict (g2 : String) (isDev : Bool)
    {x v1 v2 g1 : String} (hne : v1 ≠ v2) :
    ∀ (l : List (String × String)) (vm : List (String × String × String))
      (ws : List String), (x, v2) ∈ l → (JsObj.keys l).Nodup →
      JsObj.get? vm x = some (v1, g1) →
      conflictWarn isDev x v1 g1 v2 g2 ∈ (checkVersions g2 isDev l vm ws).2 := by
  intro l
  induction l with
  | nil => intro vm ws hmem _ _; simp at hmem
  | cons kv rest ih =>
    intro vm ws hmem hnd hvm
    obtain ⟨dep, version⟩ := kv
    rw [JsObj.keys_cons] at hnd
    obtain ⟨hni, hnd'⟩ := List.nodup_cons.mp hnd
    simp only [checkVersions]
    rcases List.mem_cons.mp hmem with he | hm
    · injection he with e1 e2
      subst e1
      subst e2
      apply checkVersions_warns_mono
      simp only [hvm]
      simp [hne]
    · have hx : dep ≠ x := by
        intro e
        apply hni
        have hmm : (x, v2).1 ∈ List.map Prod.fst rest :=
          List.mem_map_of_mem Prod.fst hm
        rw [e]
        exact hmm
      have hvm' : JsObj.get? (JsObj.set vm dep (version, g2)) x = some (v1, g1) := by
        rw [JsObj.get?_set_of_ne _ _ _ _ hx]
        exact hvm
      exact ih _ _ hm hnd' hvm'

/-! ## Projection lemmas for the merge loop -/

theorem mergeGroupStep_registry (st : MergeState) (g : String) :
    (mergeGroupStep st g).registry = st.registry := by
  unfold mergeGroupStep
  cases JsObj.get? st.registry.groups g with
  | none => rfl
  | some group =>
    obtain ⟨gdeps, gdev⟩ := group
    cases gdeps <;> cases gdev <;> rfl

theorem mergeGroupStep_mergedDeps (st : MergeState) (g : String) :
    (mergeGroupStep st g).mergedDeps =
      JsObj.spread st.mergedDeps (groupDepsOf st.registry g) := by
  unfold mergeGroupStep groupDepsOf
  cases JsObj.get? st.registry.groups g with
  | none => rfl
  | some group =>
    obtain ⟨gdeps, gdev⟩ := group
    cases gdeps <;> cases gdev <;> rfl

theorem mergeGroupStep_mergedDev (st : MergeState) (g : String) :
    (mergeGroupStep st g).mergedDev =
      JsObj.spread st.mergedDev (groupDevDepsOf st.registry g) := by
  unfold mergeGroupStep groupDevDepsOf
  cases JsObj.get? st.registry.groups g with
  | none => rfl
  | some group =>
    obtain ⟨gdeps, gdev⟩ := group
    cases gdeps <;> cases gdev <;> rfl

theorem mergeGroupStep_depVersions (st : MergeState) (g : String) :
    (mergeGroupStep st g).depVersions =
      (checkVersions g false (groupDepsOf st.registry g) st.depVersions st.warnings).1 := by
  unfold mergeGroupStep groupDepsOf
  cases JsObj.get? st.registry.groups g with
  | none => rfl
  | some group =>
    obtain ⟨gdeps, gdev⟩ := group
    cases gdeps <;> cases gdev <;> rfl

theorem mergeGroupStep_warns_mono {w : String} (st : MergeState) (g : String)
    (h : w ∈ st.warnings) : w ∈ (mergeGroupStep st g).warnings := by
  unfold mergeGroupStep
  cases JsObj.get? st.registry.groups g with
  | none => exact List.mem_append_left _ h
  | some group =>
    obtain ⟨gdeps, gdev⟩ := group
    cases gdeps with
    | none =>
      cases gdev with
      | none => exact h
      | some gdd => exact checkVersions_warns_mono _ _ _ _ _ h
    | some gd =>
      cases gdev with
      | none => exact checkVersions_warns_mono _ _ _ _ _ h
      | some gdd =>
        exact checkVersions_warns_mono _ _ _ _ _
          (checkVersions_warns_mono _ _ _ _ _ h)

theorem mergeGroupStep_warn_from_deps {w : String} (st : MergeState)
    (g : String) (group : DependencySet) (gd : List (String × String))
    (hg : JsObj.get? st.registry.groups g = some group)
    (hd : group.dependencies = some gd)
    (h : w ∈ (checkVersions g false gd st.depVersions st.warnings).2) :
    w ∈ (mergeGroupStep st g).warnings := by
  unfold mergeGroupStep
  rw [hg]
  obtain ⟨gdeps, gdev⟩ := group
  have hd' : gdeps = some gd := hd
  subst hd'
  cases gdev with
  | none => exact h
  | some gdd => exact checkVersions_warns_mono _ _ _ _ _ h

/-! ## The merge loop as a fold -/

theorem foldl_mergeGroupStep_registry (refs : List String) (st : MergeState) :
    (refs.foldl mergeGroupStep st).registry = st.registry := by
  induction refs generalizing st with
  | nil => rfl
  | cons g rest ih => rw [List.foldl_cons, ih, mergeGroupStep_registry]

theorem foldl_mergeGroupStep_mergedDeps (refs : List String) (st : MergeState) :
    (refs.foldl mergeGroupStep st).mergedDeps =
      JsObj.spread st.mergedDeps (groupDepsConcat st.registry refs) := by
  induction refs generalizing st with
  | nil => rfl
  | cons g rest ih =>
    rw [List.foldl_cons, ih, mergeGroupStep_registry, mergeGroupStep_mergedDeps,
      groupDepsConcat, JsObj.spread_append]

theorem foldl_mergeGroupStep_mergedDev (refs : List String) (st : MergeState) :
    (refs.foldl mergeGroupStep st).mergedDev =
      JsObj.spread st.mergedDev (groupDevDepsConcat st.registry refs) := by
  induction refs generalizing st with
  | nil => rfl
  | cons g rest ih =>
    rw [List.foldl_cons, ih, mergeGroupStep_registry, mergeGroupStep_mergedDev,
      groupDevDepsConcat, JsObj.spread_append]

theorem foldl_mergeGroupStep_warns_mono {w : String} (refs : List String)
    (st : MergeState) (h : w ∈ st.warnings) :
    w ∈ (refs.foldl mergeGroupStep st).warnings := by
  induction refs generalizing st with
  | nil => exact h
  | cons g rest ih => exact ih _ (mergeGroupStep_warns_mono _ _ h)

/-! ## Characterization of a non-trivial merge -/

theorem mergeDepGroupsFull_spec (p : PackageJson) (reg : DepGroups)
    (refs : List String) (h : p.depGroups = some refs) (hne : refs.isEmpty = false) :
    mergeDepGroupsFull p reg =
      ({ p with
          dependencies :=
            some (sortByKey (refs.foldl mergeGroupStep (mergeInitState p reg)).mergedDeps)
          devDependencies :=
            some (sortByKey (refs.foldl mergeGroupStep (mergeInitState p reg)).mergedDev) },
       (refs.foldl mergeGroupStep (mergeInitState p reg)).registry,
       (refs.foldl mergeGroupStep (mergeInitState p reg)).warnings) := by
  unfold mergeDepGroupsFull
  rw [h]
  simp [hne]

theorem mergeDepGroupsFull_trivial (p : PackageJson) (reg : DepGroups)
    (h : p.depGroups = none ∨ p.depGroups = some []) :
    mergeDepGroupsFull p reg = (p, reg, []) := by
  unfold mergeDepGroupsFull
  rcases h with h | h <;> rw [h]
  rfl

/-! ## Extensional equality of `sortByKey` and the idempotence core -/

theorem sortByKey_congr (d1 d2 : List (String × String))
    (hn1 : (JsObj.keys d1).Nodup) (hn2 : (JsObj.keys d2).Nodup)
    (hmem : ∀ x, x ∈ JsObj.keys d1 ↔ x ∈ JsObj.keys d2)
    (hget : ∀ x, JsObj.get? d1 x = JsObj.get? d2 x) :
    sortByKey d1 = sortByKey d2 := by
  unfold sortByKey
  have hperm : (JsObj.keys d1).Perm (JsObj.keys d2) :=
    (List.perm_ext_iff_of_nodup hn1 hn2).mpr hmem
  have hkeys : List.insertionSort strLeP (JsObj.keys d1) =
      List.insertionSort strLeP (JsObj.keys d2) :=
    List.eq_of_perm_of_sorted
      (((List.perm_insertionSort _ _).trans hperm).trans
        (List.perm_insertionSort _ _).symm)
      (List.sorted_insertionSort _ _) (List.sorted_insertionSort _ _)
  rw [hkeys]
  have hfun : (fun k => (k, (JsObj.get? d1 k).getD "")) =
      (fun k => (k, (JsObj.get? d2 k).getD "")) := funext fun k => by rw [hget]
  rw [hfun]

theorem sortByKey_spread_idem (d0 G : List (String × String)) :
    sortByKey (JsObj.spread
      (JsObj.spread [] (sortByKey (JsObj.spread (JsObj.spread [] d0) G))) G) =
    sortByKey (JsObj.spread (JsObj.spread [] d0) G) := by
  have hnb : (JsObj.keys (JsObj.spread ([] : List (String × String)) d0)).Nodup :=
    JsObj.nodup_keys_spread d0 (by simp [JsObj.keys])
  have hn1 : (JsObj.keys (JsObj.spread (JsObj.spread [] d0) G)).Nodup :=
    JsObj.nodup_keys_spread G hnb
  have hns : (JsObj.keys (sortByKey (JsObj.spread (JsObj.spread [] d0) G))).Nodup :=
    nodup_keys_sortByKey _ hn1
  have hcanon : JsObj.spread [] (sortByKey (JsObj.spread (JsObj.spread [] d0) G)) =
      sortByKey (JsObj.spread (JsObj.spread [] d0) G) :=
    JsObj.spread_nil_left_eq _ hns
  rw [hcanon]
  have hn2 : (JsObj.keys (JsObj.spread
      (sortByKey (JsObj.spread (JsObj.spread [] d0) G)) G)).Nodup :=
    JsObj.nodup_keys_spread G hns
  apply sortByKey_congr _ _ hn2 hn1
  · intro x
    rw [JsObj.mem_keys_spread, JsObj.mem_keys_spread, keys_sortByKey]
    rw [(List.perm_insertionSort strLeP _).mem_iff (a := x)]
    rw [JsObj.mem_keys_spread]
    tauto
  · intro x
    rw [JsObj.get?_spread, JsObj.get?_spread, get?_sortByKey, JsObj.get?_spread]
    cases JsObj.lastVal G x <;> simp [Option.or]

theorem merged_deps_formula (p : PackageJson) (reg : DepGroups) (refs : List String) :
    (refs.foldl mergeGroupStep (mergeInitState p reg)).mergedDeps =
      JsObj.spread (JsObj.spread [] (p.dependencies.getD []))
        (groupDepsConcat reg refs) := by
  rw [foldl_mergeGroupStep_mergedDeps]
  rfl

theorem merged_dev_formula (p : PackageJson) (reg : DepGroups) (refs : List String) :
    (refs.foldl mergeGroupStep (mergeInitState p reg)).mergedDev =
      JsObj.spread (JsObj.spread [] (p.devDependencies.getD []))
        (groupDevDepsConcat reg refs) := by
  rw [foldl_mergeGroupStep_mergedDev]
  rfl

/-! ## Claim theorems -/

/-- C10: `mergeDepGroups` never mutates its registry argument.  The
registry object is threaded through every iteration of the merge loop;
since the source contains no write to it, the registry state at return
equals the input registry, for every manifest and registry. -/
theorem merge_registry_unchanged (p : PackageJson) (reg : DepGroups) :
    mergeRegistryAfter p reg = reg := by
  unfold mergeRegistryAfter mergeDepGroupsFull
  cases p.depGroups with
  | none => rfl
  | some refs =>
    by_cases h : refs.isEmpty
    · simp [h]
    · simp only [h, Bool.false_eq_true, if_false]
      rw [foldl_mergeGroupStep_registry]
      rfl

/-- C9: for every manifest with a non-empty group-reference list, the
merged manifest has both `dependencies` and `devDependencies` defined
(merge materializes absent maps as empty maps). -/
theorem merge_materializes_maps (p : PackageJson) (reg : DepGroups)
    (refs : List String) (h : p.depGroups = some refs) (hne : refs ≠ []) :
    (mergeDepGroups p reg).dependencies.isSome ∧
      (mergeDepGroups p reg).devDependencies.isSome := by
  have he : refs.isEmpty = false := by
    cases refs with
    | nil => exact absurd rfl hne
    | cons a t => rfl
  unfold mergeDepGroups
  rw [mergeDepGroupsFull_spec p reg refs h he]
  simp

/-- C9 witness: a manifest with `depGroups = ["g"]` and neither map
present comes back from merge with both maps defined. -/
theorem merge_materializes_maps_witness :
    (mergeDepGroups { name := "a", depGroups := some ["g"] } ⟨[]⟩).dependencies.isSome ∧
      (mergeDepGroups { name := "a", depGroups := some ["g"] } ⟨[]⟩).devDependencies.isSome :=
  merge_materializes_maps _ _ ["g"] rfl (by simp)

/-- C8: after `syncFromPackages` the registry file always exists on disk
(sync writes it whenever it did not previously exist, even with nothing
collected), so the `loadDepGroups` call that follows in
`generateDependencies` cannot reach its file-not-found error branch. -/
theorem registry_exists_after_sync (rootDir : String) (fileExists : Bool)
    (stored : DepGroups) (files : List PkgFile) (stored2 : DepGroups) :
    registryExistsAfterSync fileExists (syncFromPackages rootDir fileExists stored files) = true ∧
    loadDepGroups rootDir
      (registryExistsAfterSync fileExists (syncFromPackages rootDir fileExists stored files))
      stored2 = Except.ok stored2 := by
  cases fileExists <;>
    simp [registryExistsAfterSync, syncFromPackages, loadDepGroups]

/-- C2: the Merge Engine is idempotent — for every manifest and registry,
merging the already-merged manifest against the same registry returns it
unchanged. -/
theorem merge_idempotent (p : PackageJson) (reg : DepGroups) :
    mergeDepGroups (mergeDepGroups p reg) reg = mergeDepGroups p reg := by
  unfold mergeDepGroups
  cases hdg : p.depGroups with
  | none =>
    have h1 : (mergeDepGroupsFull p reg).1 = p := by
      rw [mergeDepGroupsFull_trivial p reg (Or.inl hdg)]
    rw [h1]
    exact h1
  | some refs =>
    cases refs with
    | nil =>
      have h1 : (mergeDepGroupsFull p reg).1 = p := by
        rw [mergeDepGroupsFull_trivial p reg (Or.inr hdg)]
      rw [h1]
      exact h1
    | cons r rs =>
      have hne : (r :: rs).isEmpty = false := rfl
      have hm1 : (mergeDepGroupsFull p reg).1 = { p with
          dependencies := some (sortByKey (JsObj.spread
            (JsObj.spread [] (p.dependencies.getD []))
            (groupDepsConcat reg (r :: rs))))
          devDependencies := some (sortByKey (JsObj.spread
            (JsObj.spread [] (p.devDependencies.getD []))
            (groupDevDepsConcat reg (r :: rs)))) } := by
        rw [mergeDepGroupsFull_spec p reg (r :: rs) hdg hne, merged_deps_formula,
          merged_dev_formula]
      rw [hm1]
      have hdg2 : ({ p with
          dependencies := some (sortByKey (JsObj.spread
            (JsObj.spread [] (p.dependencies.getD []))
            (groupDepsConcat reg (r :: rs))))
          devDependencies := some (sortByKey (JsObj.spread
            (JsObj.spread [] (p.devDependencies.getD []))
            (groupDevDepsConcat reg (r :: rs)))) } : PackageJson).depGroups =
          some (r :: rs) := by
        simp [hdg]
      rw [mergeDepGroupsFull_spec _ reg (r :: rs) hdg2 hne, merged_deps_formula,
        merged_dev_formula]
      simp only [Option.getD_some]
      rw [sortByKey_spread_idem, sortByKey_spread_idem]

/-- C1: for a manifest referencing groups `[A, B]` where both groups
define dependency `x` at different versions, the merged version of `x`
is B's version — the last-declared group wins over the earlier group and
over the manifest's own entry — and a version-conflict warning naming
both versions (and both groups) is emitted. -/
theorem merge_last_group_wins (p : PackageJson) (reg : DepGroups)
    (A B x v1 v2 : String) (gA gB : DependencySet)
    (dA dB : List (String × String))
    (hrefs : p.depGroups = some [A, B])
    (hA : JsObj.get? reg.groups A = some gA)
    (hB : JsObj.get? reg.groups B = some gB)
    (hdA : gA.dependencies = some dA)
    (hdB : gB.dependencies = some dB)
    (hxA : JsObj.get? dA x = some v1)
    (hxB : JsObj.get? dB x = some v2)
    (hne : v1 ≠ v2)
    (hnA : (JsObj.keys dA).Nodup)
    (hnB : (JsObj.keys dB).Nodup) :
    JsObj.get? ((mergeDepGroups p reg).dependencies.getD []) x = some v2 ∧
      conflictWarn false x v1 A v2 B ∈ mergeWarnings p reg := by
  have hne2 : ([A, B] : List String).isEmpty = false := rfl
  have hspec := mergeDepGroupsFull_spec p reg [A, B] hrefs hne2
  have hgA : groupDepsOf reg A = dA := by
    unfold groupDepsOf
    rw [hA]
    simp [hdA]
  have hgB : groupDepsOf reg B = dB := by
    unfold groupDepsOf
    rw [hB]
    simp [hdB]
  constructor
  · unfold mergeDepGroups
    rw [hspec]
    show JsObj.get?
      (sortByKey (([A, B]).foldl mergeGroupStep (mergeInitState p reg)).mergedDeps) x =
      some v2
    rw [get?_sortByKey, merged_deps_formula]
    have hcat : groupDepsConcat reg [A, B] = dA ++ (dB ++ []) := by
      show groupDepsOf reg A ++ (groupDepsOf reg B ++ []) = dA ++ (dB ++ [])
      rw [hgA, hgB]
    rw [hcat, List.append_nil, JsObj.spread_append, JsObj.get?_spread,
      JsObj.lastVal_eq_get?_of_nodup _ hnB, hxB]
    rfl
  · unfold mergeWarnings
    rw [hspec]
    show conflictWarn false x v1 A v2 B ∈
      (mergeGroupStep (mergeGroupStep (mergeInitState p reg) A) B).warnings
    have hreg1 : (mergeGroupStep (mergeInitState p reg) A).registry = reg := by
      rw [mergeGroupStep_registry]
      rfl
    have hdv : (mergeGroupStep (mergeInitState p reg) A).depVersions =
        (checkVersions A false dA [] []).1 := by
      rw [mergeGroupStep_depVersions]
      show (checkVersions A false (groupDepsOf reg A) [] []).1 =
        (checkVersions A false dA [] []).1
      rw [hgA]
    have hvm : JsObj.get? (mergeGroupStep (mergeInitState p reg) A).depVersions x =
        some (v1, A) := by
      rw [hdv]
      exact checkVersions_vers_of_mem A false dA [] []
        (JsObj.mem_of_get?_eq_some hxA) hnA
    apply mergeGroupStep_warn_from_deps _ B gB dB _ hdB
    · exact checkVersions_warn_of_conflict B false hne dB _ _
        (JsObj.mem_of_get?_eq_some hxB) hnB hvm
    · rw [hreg1]
      exact hB

/-- C1 witness: manifest referencing `["A", "B"]`, both groups defining
`x` at versions `1` and `2`; the merge yields `2` and the conflict
warning. -/
theorem merge_last_group_wins_witness :
    JsObj.get? ((mergeDepGroups
        { name := "m", depGroups := some ["A", "B"],
          dependencies := some [("x", "0")] }
        ⟨[("A", { dependencies := some [("x", "1")] }),
          ("B", { dependencies := some [("x", "2")] })]⟩).dependencies.getD [])
      "x" = some "2" ∧
    conflictWarn false "x" "1" "A" "2" "B" ∈ mergeWarnings
        { name := "m", depGroups := some ["A", "B"],
          dependencies := some [("x", "0")] }
        ⟨[("A", { dependencies := some [("x", "1")] }),
          ("B", { dependencies := some [("x", "2")] })]⟩ :=
  merge_last_group_wins _ _ "A" "B" "x" "1" "2" _ _ _ _ rfl rfl rfl rfl rfl rfl rfl
    (by decide) (by decide) (by decide)

/-- C6 counterexample: the claim quantifies over every manifest returned
by the Merge Engine, but a manifest with no group references is returned
unchanged (identity branch), so unsorted keys survive: on this input the
returned `dependencies` key sequence `["b", "a"]` is not strictly
sorted. -/
theorem merge_no_refs_keys_unsorted :
    ¬ List.Pairwise (fun a b => strLeP a b ∧ a ≠ b)
      (JsObj.keys ((mergeDepGroups
        { name := "m", dependencies := some [("b", "1"), ("a", "1")] }
        ⟨[]⟩).dependencies.getD [])) := by decide

/-- C6 amended: for every manifest with a non-empty group-reference list,
the manifest returned by the Merge Engine has the keys of `dependencies`
and of `devDependencies` in strict lexicographic order. -/
theorem merge_keys_strictly_sorted (p : PackageJson) (reg : DepGroups)
    (refs : List String) (h : p.depGroups = some refs) (hne : refs ≠ []) :
    List.Pairwise (fun a b => strLeP a b ∧ a ≠ b)
      (JsObj.keys ((mergeDepGroups p reg).dependencies.getD [])) ∧
    List.Pairwise (fun a b => strLeP a b ∧ a ≠ b)
      (JsObj.keys ((mergeDepGroups p reg).devDependencies.getD [])) := by
  have he : refs.isEmpty = false := by
    cases refs with
    | nil => exact absurd rfl hne
    | cons a t => rfl
  unfold mergeDepGroups
  rw [mergeDepGroupsFull_spec p reg refs h he]
  constructor
  · show List.Pairwise _
      (JsObj.keys (sortByKey (refs.foldl mergeGroupStep (mergeInitState p reg)).mergedDeps))
    have hn1 : (JsObj.keys
        (refs.foldl mergeGroupStep (mergeInitState p reg)).mergedDeps).Nodup := by
      rw [merged_deps_formula]
      exact JsObj.nodup_keys_spread _
        (JsObj.nodup_keys_spread _ (by simp [JsObj.keys]))
    exact List.Pairwise.and (sorted_keys_sortByKey _) (nodup_keys_sortByKey _ hn1)
  · show List.Pairwise _
      (JsObj.keys (sortByKey (refs.foldl mergeGroupStep (mergeInitState p reg)).mergedDev))
    have hn1 : (JsObj.keys
        (refs.foldl mergeGroupStep (mergeInitState p reg)).mergedDev).Nodup := by
      rw [merged_dev_formula]
      exact JsObj.nodup_keys_spread _
        (JsObj.nodup_keys_spread _ (by simp [JsObj.keys]))
    exact List.Pairwise.and (sorted_keys_sortByKey _) (nodup_keys_sortByKey _ hn1)

/-- C6 witness: a participating manifest with unsorted input maps comes
back with strictly sorted keys in both maps. -/
theorem merge_keys_strictly_sorted_witness :
    List.Pairwise (fun a b => strLeP a b ∧ a ≠ b)
      (JsObj.keys ((mergeDepGroups
        { name := "m", depGroups := some ["g"],
          dependencies := some [("b", "1"), ("a", "1")],
          devDependencies := some [("d", "1"), ("c", "1")] }
        ⟨[("g", { dependencies := some [("c", "2")] })]⟩).dependencies.getD [])) ∧
    List.Pairwise (fun a b => strLeP a b ∧ a ≠ b)
      (JsObj.keys ((mergeDepGroups
        { name := "m", depGroups := some ["g"],
          dependencies := some [("b", "1"), ("a", "1")],
          devDependencies := some [("d", "1"), ("c", "1")] }
        ⟨[("g", { dependencies := some [("c", "2")] })]⟩).devDependencies.getD [])) :=
  merge_keys_strictly_sorted _ _ ["g"] rfl (by simp)

/-- C3: target-group selection in the Sync Engine.  An explicit
non-empty `depGroups` list is used as-is; otherwise, when no manifest
declares groups or the registry file did not previously exist, the
manifest bootstraps to `["root"]` (workspace-root directory) or
`["standalone"]`; otherwise the manifest is skipped and its processing
leaves the whole sync state — registry, updated flag and messages —
untouched. -/
theorem sync_target_groups (fileExists hasAny : Bool) (rootDir : String)
    (st : SyncState) (pf : PkgFile) :
    ((pf.pkg.depGroups.getD []).length > 0 →
      targetGroups? fileExists hasAny (pf.dir == rootDir) pf.pkg =
        some (pf.pkg.depGroups.getD [])) ∧
    ((pf.pkg.depGroups.getD []).length = 0 →
      (hasAny = false ∨ fileExists = false) →
      targetGroups? fileExists hasAny (pf.dir == rootDir) pf.pkg =
        some [if pf.dir == rootDir then "root" else "standalone"]) ∧
    ((pf.pkg.depGroups.getD []).length = 0 → hasAny = true → fileExists = true →
      processPackage fileExists hasAny rootDir st pf = st) := by
  refine ⟨?_, ?_, ?_⟩
  · intro h
    unfold targetGroups?
    rw [if_pos h]
  · intro h0 hor
    unfold targetGroups?
    rw [if_neg (by omega), if_pos (by rcases hor with h | h <;> simp [h])]
  · intro h0 h1 h2
    unfold processPackage
    have ht : targetGroups? fileExists hasAny (pf.dir == rootDir) pf.pkg = none := by
      unfold targetGroups?
      rw [if_neg (by omega), if_neg (by simp [h1, h2])]
    simp only [ht]

/-- C3 witness: the three branches at concrete inputs — explicit groups
used as-is; bootstrap to `root` for the root directory with a fresh
registry; and a group-less manifest skipped (state unchanged) when the
registry pre-exists and another manifest has groups. -/
theorem sync_target_groups_witness :
    targetGroups? true true (("/ws/a" : String) == "/ws")
        { name := "a", depGroups := some ["g"] } = some ["g"] ∧
    targetGroups? false false (("/ws" : String) == "/ws")
        { name := "r" } =
      some [if ("/ws" : String) == "/ws" then "root" else "standalone"] ∧
    processPackage true true "/ws" ⟨⟨[]⟩, false, []⟩
        ⟨"/ws/a", { name := "a" }⟩ = ⟨⟨[]⟩, false, []⟩ :=
  ⟨(sync_target_groups true true "/ws" ⟨⟨[]⟩, false, []⟩
      ⟨"/ws/a", { name := "a", depGroups := some ["g"] }⟩).1 (by decide),
   (sync_target_groups false false "/ws" ⟨⟨[]⟩, false, []⟩
      ⟨"/ws", { name := "r" }⟩).2.1 (by decide) (Or.inl rfl),
   (sync_target_groups true true "/ws" ⟨⟨[]⟩, false, []⟩
      ⟨"/ws/a", { name := "a" }⟩).2.2 rfl rfl rfl⟩

theorem foldl_syncDepStep_filter (tg : List String) (isDev : Bool) :
    ∀ (l : List (String × String)) (acc : SyncState × List (String × String)),
      (dropWorkspaceEntries l).foldl (syncDepStep tg isDev) acc =
        l.foldl (syncDepStep tg isDev) acc := by
  intro l
  induction l with
  | nil => intro acc; rfl
  | cons kv rest ih =>
    intro acc
    by_cases hw : strStartsWith kv.2 "workspace:"
    · rw [show dropWorkspaceEntries (kv :: rest) = dropWorkspaceEntries rest from by
        simp [dropWorkspaceEntries, List.filter_cons, hw]]
      rw [List.foldl_cons]
      rw [show syncDepStep tg isDev acc kv = acc from by
        obtain ⟨st, nd⟩ := acc
        simp [syncDepStep, hw]]
      exact ih acc
    · rw [show dropWorkspaceEntries (kv :: rest) = kv :: dropWorkspaceEntries rest from by
        simp [dropWorkspaceEntries, List.filter_cons, hw]]
      rw [List.foldl_cons, List.foldl_cons]
      exact ih _

theorem processPackage_workspace_filtered (fe ha : Bool) (rootDir : String)
    (st : SyncState) (pf : PkgFile) :
    processPackage fe ha rootDir st (fileWithoutWorkspaceEntries pf) =
      processPackage fe ha rootDir st pf := by
  obtain ⟨dir, p⟩ := pf
  cases ht : targetGroups? fe ha (dir == rootDir) p with
  | none =>
    have ht' : targetGroups? fe ha (dir == rootDir) (pkgWithoutWorkspaceEntries p) =
        none := ht
    unfold processPackage fileWithoutWorkspaceEntries
    simp only [ht, ht']
  | some tg =>
    have ht' : targetGroups? fe ha (dir == rootDir) (pkgWithoutWorkspaceEntries p) =
        some tg := ht
    unfold processPackage fileWithoutWorkspaceEntries
    simp only [ht, ht']
    have hd : ((pkgWithoutWorkspaceEntries p).dependencies.getD []) =
        dropWorkspaceEntries (p.dependencies.getD []) := by
      cases hdep : p.dependencies <;>
        simp [pkgWithoutWorkspaceEntries, hdep, dropWorkspaceEntries]
    have hv : ((pkgWithoutWorkspaceEntries p).devDependencies.getD []) =
        dropWorkspaceEntries (p.devDependencies.getD []) := by
      cases hdep : p.devDependencies <;>
        simp [pkgWithoutWorkspaceEntries, hdep, dropWorkspaceEntries]
    rw [hd, hv, foldl_syncDepStep_filter, foldl_syncDepStep_filter]

theorem hasAny_workspace_filtered (files : List PkgFile) :
    hasAnyDepGroupsOf (files.map fileWithoutWorkspaceEntries) =
      hasAnyDepGroupsOf files := by
  unfold hasAnyDepGroupsOf
  rw [List.any_map]
  rfl

/-- C4: the Sync Engine never writes `workspace:`-prefixed manifest
entries into the registry: running sync on the workspace with every such
entry deleted from every manifest produces exactly the same run —
registry, updated flag, write decision and messages. -/
theorem sync_ignores_workspace_entries (rootDir : String) (fileExists : Bool)
    (stored : DepGroups) (files : List PkgFile) :
    syncFromPackages rootDir fileExists stored (files.map fileWithoutWorkspaceEntries) =
      syncFromPackages rootDir fileExists stored files := by
  have hf : (fun (st : SyncState) (pf : PkgFile) =>
      processPackage fileExists (hasAnyDepGroupsOf files) rootDir st
        (fileWithoutWorkspaceEntries pf)) =
      processPackage fileExists (hasAnyDepGroupsOf files) rootDir :=
    funext fun st => funext fun pf =>
      processPackage_workspace_filtered _ _ _ st pf
  unfold syncFromPackages
  simp only [hasAny_workspace_filtered, List.foldl_map, hf]

/-- C5 (code bug): on a registry recording `react@^18.2.0` in group
`react` and a manifest declaring `react@^18.3.0`, sync does overwrite the
group's version and mark the registry changed, but the informational
message shows the freshly written version in the "old version" slot
(cli.ts line 208 reads `group.dependencies[dep]` after the line-205
assignment), so it prints `^18.3.0 → ^18.3.0` instead of naming the old
version `^18.2.0`. -/
theorem sync_update_message_shows_new_version :
    syncFromPackages "/ws" true
        ⟨[("react", { dependencies := some [("react", "^18.2.0")] })]⟩
        [⟨"/ws/packages/app1",
          { name := "app1", depGroups := some ["react"],
            dependencies := some [("react", "^18.3.0")] }⟩] =
      { depGroups := ⟨[("react", { dependencies := some [("react", "^18.3.0")] })]⟩,
        updated := true, written := true,
        messages := [updateMsg false "react" "^18.3.0" "^18.3.0" "react"] } ∧
    updateMsg false "react" "^18.3.0" "^18.3.0" "react" ≠
      updateMsg false "react" "^18.2.0" "^18.3.0" "react" := by
  constructor
  · decide
  · decide

theorem containsSub_append_of_right {p : List Char} :
    ∀ (a b : List Char), containsSub b p = true → containsSub (a ++ b) p = true := by
  intro a
  induction a with
  | nil => intro b h; exact h
  | cons c rest ih =>
    intro b h
    rw [List.cons_append]
    simp only [containsSub, Bool.or_eq_true]
    exact Or.inr (ih b h)

theorem strIncludes_append_right (a b pat : String)
    (h : strIncludes b pat = true) : strIncludes (a ++ b) pat = true := by
  unfold strIncludes at *
  have hl : (a ++ b).toList = a.toList ++ b.toList := String.data_append a b
  rw [hl]
  exact containsSub_append_of_right _ _ h

theorem string_append_ne_empty_right (a b : String) (hb : b ≠ "") :
    a ++ b ≠ "" := by
  intro h
  apply hb
  have hd : (a ++ b).data = [] := by rw [h]
  rw [String.data_append] at hd
  exact String.toList_inj.mp (show b.toList = "".toList from (List.append_eq_nil.mp hd).2)

theorem falsyStr_some_of_ne {q : String} (h : q ≠ "") :
    JsObj.falsyStr (some q) = false := by
  cases he : q.isEmpty with
  | false => exact he
  | true => exact absurd ((String.isEmpty_iff q).mp he) h

theorem ne_empty_of_strIncludes_tool {q : String}
    (h : strIncludes q "dependency-grouper" = true) : q ≠ "" := by
  intro he
  subst he
  simp [strIncludes, containsSub] at h

/-- C7 counterexample: an install hook that is present but the empty
string.  The claim's "present but not already invoking this tool" case
prescribes appending with `&&`, but the code treats the empty string as
falsy and sets the field to the bare generate command instead of the
appended form. -/
theorem inject_preinstall_empty_not_appended :
    injectPreinstall (some [("preinstall", "")]) = [("preinstall", generateCmd)] ∧
      generateCmd ≠ "" ++ " && " ++ generateCmd := by
  constructor
  · decide
  · decide

/-- C7 amended: if the hook is absent **or the empty string**, it is set
to exactly the generate command; if present, non-empty, and not already
mentioning the tool, the generate command is appended with `&&`; if it
already mentions the tool, the scripts map is returned unchanged; and a
second application of the hook-injection step changes nothing. -/
theorem inject_preinstall_cases (scripts : Option (List (String × String))) :
    (JsObj.falsyStr (JsObj.get? (scripts.getD []) "preinstall") = true →
      JsObj.get? (injectPreinstall scripts) "preinstall" = some generateCmd) ∧
    (∀ q, JsObj.get? (scripts.getD []) "preinstall" = some q → q ≠ "" →
      strIncludes q "dependency-grouper" = false →
      JsObj.get? (injectPreinstall scripts) "preinstall" =
        some (q ++ " && " ++ generateCmd)) ∧
    (∀ q, JsObj.get? (scripts.getD []) "preinstall" = some q →
      strIncludes q "dependency-grouper" = true →
      injectPreinstall scripts = scripts.getD []) ∧
    injectPreinstall (some (injectPreinstall scripts)) = injectPreinstall scripts := by
  have hset : ∀ (h1 : JsObj.falsyStr (JsObj.get? (scripts.getD []) "preinstall") = true),
      injectPreinstall scripts = JsObj.set (scripts.getD []) "preinstall" generateCmd := by
    intro h1
    unfold injectPreinstall
    simp [h1]
  have happ : ∀ q, JsObj.get? (scripts.getD []) "preinstall" = some q → q ≠ "" →
      strIncludes q "dependency-grouper" = false →
      injectPreinstall scripts =
        JsObj.set (scripts.getD []) "preinstall" (q ++ " && " ++ generateCmd) := by
    intro q hq hqne hqinc
    unfold injectPreinstall
    simp [hq, falsyStr_some_of_ne hqne, hqinc]
  have hkeep2 : ∀ (s : List (String × String)) q,
      JsObj.get? s "preinstall" = some q →
      strIncludes q "dependency-grouper" = true →
      injectPreinstall (some s) = s := by
    intro s q hq hinc
    unfold injectPreinstall
    simp [hq, falsyStr_some_of_ne (ne_empty_of_strIncludes_tool hinc), hinc]
  have hkeep : ∀ q, JsObj.get? (scripts.getD []) "preinstall" = some q →
      strIncludes q "dependency-grouper" = true →
      injectPreinstall scripts = scripts.getD [] :=
    fun q hq hinc => hkeep2 (scripts.getD []) q hq hinc
  have hcmdinc : strIncludes generateCmd "dependency-grouper" = true := by decide
  refine ⟨?_, ?_, hkeep, ?_⟩
  · intro h1
    rw [hset h1]
    exact JsObj.get?_set_self _ _ _
  · intro q hq hqne hqinc
    rw [happ q hq hqne hqinc]
    exact JsObj.get?_set_self _ _ _
  · -- second application is the identity
    by_cases h1 : JsObj.falsyStr (JsObj.get? (scripts.getD []) "preinstall") = true
    · rw [hset h1]
      exact hkeep2 _ generateCmd (JsObj.get?_set_self _ _ _) hcmdinc
    · obtain ⟨q, hq⟩ : ∃ q, JsObj.get? (scripts.getD []) "preinstall" = some q := by
        cases hc : JsObj.get? (scripts.getD []) "preinstall" with
        | none => rw [hc] at h1; exact absurd rfl h1
        | some q => exact ⟨q, rfl⟩
      by_cases h2 : strIncludes q "dependency-grouper" = true
      · rw [hkeep q hq h2]
        exact hkeep2 _ q hq h2
      · have hqne : q ≠ "" := by
          intro he
          subst he
          rw [hq] at h1
          exact h1 rfl
        have h2f : strIncludes q "dependency-grouper" = false :=
          Bool.not_eq_true _ ▸ Bool.of_not_eq_true h2
        rw [happ q hq hqne h2f]
        exact hkeep2 _ _ (JsObj.get?_set_self _ _ _)
          (strIncludes_append_right _ _ _ hcmdinc)

/-- C7 witness: a hook `"echo hi"` gets the generate command appended
with the `&&` convention. -/
theorem inject_preinstall_cases_witness :
    JsObj.get? (injectPreinstall (some [("preinstall", "echo hi")])) "preinstall" =
      some ("echo hi" ++ " && " ++ generateCmd) :=
  (inject_preinstall_cases (some [("preinstall", "echo hi")])).2.1 "echo hi" rfl
    (by decide) (by decide)

end DepGrouper
